import Mathlib

/-!
Shallow embedding of the structural code-navigation core of EchoCode:
`src/Core/Summarizer/codeParser.js` (block locator) and
`src/navigation_features/navigationHandler.js` (flattener, jump-target
builder, navigator, regex fallback).  Positions and ranges are modelled
with `Nat` line/character fields; JavaScript number arithmetic inside
`rangeSize` is modelled with `Int` (subtraction may be negative).
Document text is modelled as its list of lines (each a list of
characters), matching `document.getText()` split at newlines, so that the
`^`-anchored multiline regex of the fallback scanner becomes a per-line
prefix test.
-/

namespace EchoCode

/-- vscode.Position: (line, character). -/
structure Pos where
  line : Nat
  character : Nat
deriving DecidableEq, Repr

/-- vscode.Range: start and end positions.  (`end` is a Lean keyword, so the
field is named `stop`; it embeds `range.end`.) -/
structure Range where
  start : Pos
  stop : Pos
deriving DecidableEq, Repr

/-- The vscode.SymbolKind values this codebase mentions, plus `Other` for
all remaining kinds. -/
inductive SymbolKind where
  | Class
  | Struct
  | Function
  | Method
  | Constructor
  | Variable
  | Other
deriving DecidableEq, Repr

/-- A DocumentSymbol as returned by
`vscode.executeDocumentSymbolProvider`: name, kind, range, children. -/
inductive Symbol where
  | mk (name : String) (kind : SymbolKind) (range : Range) (children : List Symbol)

def Symbol.name : Symbol → String
  | .mk n _ _ _ => n

def Symbol.kind : Symbol → SymbolKind
  | .mk _ k _ _ => k

def Symbol.range : Symbol → Range
  | .mk _ _ r _ => r

def Symbol.children : Symbol → List Symbol
  | .mk _ _ _ c => c

/-- codeParser.js `inRange(pos, range)`, translated clause for clause. -/
def inRange (pos : Pos) (range : Range) : Bool :=
  if pos.line < range.start.line || pos.line > range.stop.line then false
  else if pos.line == range.start.line && pos.character < range.start.character then false
  else if pos.line == range.stop.line && pos.character > range.stop.character then false
  else true

/-- codeParser.js `rangeSize(range)`:
`(end.line - start.line) * 10000 + (end.character - start.character)`,
over JavaScript numbers, hence `Int`. -/
def rangeSize (range : Range) : Int :=
  ((range.stop.line : Int) - (range.start.line : Int)) * 10000
    + ((range.stop.character : Int) - (range.start.character : Int))

/-- Lexicographic `≤` on positions: compare by line, then column.
Spec-side order used to state containment and sortedness claims. -/
def posLexLe (p q : Pos) : Prop :=
  p.line < q.line ∨ (p.line = q.line ∧ p.character ≤ q.character)

instance (p q : Pos) : Decidable (posLexLe p q) := by
  unfold posLexLe; infer_instance

/-- A flattened entry: the symbol together with its ancestor chain
(root first).  navigationHandler.js spreads the symbol and adds `parent`;
codeParser.js builds `{ sym, parents }` — the same shape. -/
structure Entry where
  sym : Symbol
  parent : List Symbol

theorem Symbol.sizeOf_children_lt (s : Symbol) : sizeOf s.children < sizeOf s := by
  cases s
  simp [Symbol.children]
  try omega

/-- navigationHandler.js `flattenSymbols(symbols, parent = [])`:
depth-first pre-order flattening carrying the ancestor chain.
(The JS guard `if (s.children && s.children.length)` only skips a
recursive call that would return `[]` anyway.) -/
def flattenSymbols : List Symbol → List Symbol → List Entry
  | [], _ => []
  | s :: rest, parent =>
      { sym := s, parent := parent }
        :: (flattenSymbols s.children (parent ++ [s]) ++ flattenSymbols rest parent)
termination_by ts _ => sizeOf ts
decreasing_by all_goals (have hlt := Symbol.sizeOf_children_lt s; simp; try omega)

/-- codeParser.js inner `walk(list, parents = [])`: pushes `{ sym, parents }`
then recurses into children with `parents.concat(s)` — the same traversal
as `flattenSymbols`. -/
def walkFlat : List Symbol → List Symbol → List Entry
  | [], _ => []
  | s :: rest, parents =>
      { sym := s, parent := parents }
        :: (walkFlat s.children (parents ++ [s]) ++ walkFlat rest parents)
termination_by ts _ => sizeOf ts
decreasing_by all_goals (have hlt := Symbol.sizeOf_children_lt s; simp; try omega)

theorem walkFlat_eq_flattenSymbols : ∀ ts anc, walkFlat ts anc = flattenSymbols ts anc
  | [], _ => by simp only [walkFlat, flattenSymbols]
  | s :: rest, anc => by
      simp only [walkFlat, flattenSymbols]
      rw [walkFlat_eq_flattenSymbols s.children (anc ++ [s]),
        walkFlat_eq_flattenSymbols rest anc]
termination_by ts _ => sizeOf ts
decreasing_by all_goals (have hlt := Symbol.sizeOf_children_lt s; simp; try omega)

/-- Stable insertion sort.  JavaScript `Array.prototype.sort` with a
consistent comparator is required (ES2019) to produce the stable sorted
permutation of its input, which this function computes for the relation
`le a b ↔ cmp(a,b) <= 0`. -/
def orderedInsert (le : α → α → Bool) (a : α) : List α → List α
  | [] => [a]
  | b :: l => if le a b then a :: b :: l else b :: orderedInsert le a l

def insertionSort (le : α → α → Bool) : List α → List α
  | [] => []
  | a :: l => orderedInsert le a (insertionSort le l)

/-- navigationHandler.js `isJumpableKind(kind)`. -/
def isJumpableKind (kind : SymbolKind) : Bool :=
  kind == .Function || kind == .Method || kind == .Constructor ||
    kind == .Class || kind == .Struct

/-- JavaScript `String.prototype.trim`: drop whitespace from both ends.
(Implemented over the character list so the kernel can evaluate it.) -/
def jsTrim (s : String) : String :=
  ⟨((s.data.dropWhile Char.isWhitespace).reverse.dropWhile Char.isWhitespace).reverse⟩

/-- JavaScript `Array.prototype.join(sep)` on a list of strings. -/
def joinSep (sep : String) : List String → String
  | [] => ""
  | [x] => x
  | x :: xs => x ++ sep ++ joinSep sep xs

/-- navigationHandler.js `prettyName(sym)`:
ancestor names trimmed with empty ones dropped (`filter(Boolean)`), then —
only when the raw own name is non-empty (`if (sym.name)`) — the trimmed own
name, joined with `::`; an empty join falls back to `"(unnamed)"`. -/
def prettyName (e : Entry) : String :=
  let chain := (e.parent.map fun p => jsTrim p.name).filter fun seg => seg ≠ ""
  let chain2 := if e.sym.name ≠ "" then chain ++ [jsTrim e.sym.name] else chain
  let joined := joinSep "::" chain2
  if joined = "" then "(unnamed)" else joined

/-- navigationHandler.js `getPositionFromRange(document, range)`.  The model
keeps provider ranges present, so this is the `range.start` branch; the
`new vscode.Position(0, 0)` guard is unreachable here. -/
def getPositionFromRange (range : Range) : Pos :=
  range.start

/-- A jump target: `{ position, name }`. -/
structure JumpTarget where
  position : Pos
  name : String
deriving DecidableEq, Repr

/-- The position comparator of getJumpTargets' `.sort`, as a `Bool` order:
`cmp(a,b) <= 0` for `a.line === b.line ? a.char - b.char : a.line - b.line`. -/
def targetLe (a b : JumpTarget) : Bool :=
  if a.position.line == b.position.line
  then a.position.character ≤ b.position.character
  else a.position.line ≤ b.position.line

/-- The provider branch of navigationHandler.js `getJumpTargets`:
flatten, keep jumpable kinds, build `{ position, name }`, sort by position.
JavaScript's sort (stable since ES2019) is modelled by stable insertion
sort on `targetLe`. -/
def providerTargets (symbols : List Symbol) : List JumpTarget :=
  insertionSort targetLe
    (((flattenSymbols symbols []).filter fun e => isJumpableKind e.sym.kind).map
      fun e => { position := getPositionFromRange e.sym.range, name := prettyName e })

/-- `\w` of the fallback regex: `[A-Za-z0-9_]`. -/
def isWordChar (c : Char) : Bool :=
  (('a' ≤ c && c ≤ 'z') || ('A' ≤ c && c ≤ 'Z') || ('0' ≤ c && c ≤ '9') || c == '_')

/-- One line of the fallback scan `/^(def |class )(\w+)/gm`: if the line
starts with `def ` or `class ` followed by at least one word character,
the captured identifier, else nothing.  (The alternation tries `def `
first; no line can start with both.) -/
def lineDefName (cs : List Char) : Option String :=
  match cs with
  | 'd' :: 'e' :: 'f' :: ' ' :: rest =>
      let w := rest.takeWhile isWordChar
      if w.isEmpty then none else some ⟨w⟩
  | 'c' :: 'l' :: 'a' :: 's' :: 's' :: ' ' :: rest =>
      let w := rest.takeWhile isWordChar
      if w.isEmpty then none else some ⟨w⟩
  | _ => none

/-- The fallback branch of `getJumpTargets`: every `^`-anchored match of
`/^(def |class )(\w+)/gm` over the document text, in textual order; each
match sits at the start of its line, so `positionAt(match.index)` is
`(lineIndex, 0)`. -/
def regexScan (docLines : List (List Char)) : List JumpTarget :=
  (docLines.enum.filterMap fun li =>
    (lineDefName li.2).map fun w => ({ position := ⟨li.1, 0⟩, name := w } : JumpTarget))

/-- navigationHandler.js `getJumpTargets(document)` as a function of the
provider's symbol list and the document's lines: the provider branch runs
when symbols are non-empty and its result is returned only when non-empty
(`if (flat.length) return flat;`); otherwise the regex fallback runs. -/
def getJumpTargets (symbols : List Symbol) (docLines : List (List Char)) : List JumpTarget :=
  if symbols.length > 0 then
    let flat := providerTargets symbols
    if flat.length > 0 then flat else regexScan docLines
  else regexScan docLines

inductive Direction where
  | next
  | previous
deriving DecidableEq, Repr

/-- vscode `Position.isAfter`: strict lexicographic greater-than. -/
def Pos.isAfter (p other : Pos) : Bool :=
  other.line < p.line || (other.line == p.line && other.character < p.character)

/-- vscode `Position.isBefore`: strict lexicographic less-than. -/
def Pos.isBefore (p other : Pos) : Bool :=
  p.line < other.line || (p.line == other.line && p.character < other.character)

/-- The selection loop of `moveCursorToSymbol`: `next` scans the target
list in order for the first position strictly after the cursor; `previous`
scans from the last index downward for the first position strictly before
it (a descending scan is `find?` on the reversed list). -/
def pickTarget (targets : List JumpTarget) (current : Pos) : Direction → Option JumpTarget
  | .next => targets.find? fun t => t.position.isAfter current
  | .previous => targets.reverse.find? fun t => t.position.isBefore current

/-- The observable outcome of `moveCursorToSymbol`: the
"No symbols found to jump to." message, the "No next/previous symbol."
message, or a cursor move plus announcement of the target. -/
inductive MoveOutcome where
  | noSymbols
  | noTargetInDirection (dir : Direction)
  | moved (target : JumpTarget) (dir : Direction)
deriving DecidableEq, Repr

/-- The debounced announcement text of a successful move. -/
def announceText (dir : Direction) (t : JumpTarget) : String :=
  "Moved " ++ (if dir == Direction.next then "next" else "previous") ++ " to " ++ t.name ++ "."

/-- navigationHandler.js `moveCursorToSymbol(direction)` after the jump
targets are built (`navigate targets current dir`). -/
def navigate (targets : List JumpTarget) (current : Pos) (dir : Direction) : MoveOutcome :=
  if targets.length = 0 then .noSymbols
  else
    match pickTarget targets current dir with
    | none => .noTargetInDirection dir
    | some t => .moved t dir

/-- `moveCursorToSymbol` end to end, as a function of the provider's
symbol list, the document lines and the cursor. -/
def moveCursorToSymbol (symbols : List Symbol) (docLines : List (List Char))
    (current : Pos) (dir : Direction) : MoveOutcome :=
  navigate (getJumpTargets symbols docLines) current dir

/-- codeParser.js `class Selection` field state.  `firstLine`/`lastLine`
hold the text of the document line at the block's first/last line
(`doc.lineAt`), modelled as the line's characters. -/
structure Selection where
  firstLine : Option (List Char) := none
  lastLine : Option (List Char) := none
  cursorInSelection : Bool := true
  blockType : String
  name : String := ""
  text : String := ""
  selectionInClass : Bool := false
deriving Repr

def lineChars (docLines : List (List Char)) (i : Nat) : List Char :=
  docLines.getD i []

def joinWithNewline : List (List Char) → List Char
  | [] => []
  | [l] => l
  | l :: ls => l ++ '\n' :: joinWithNewline ls

/-- Host-editor `document.getText(range)` over the line model: the text
between `range.start` and `range.end`, lines joined with a newline. -/
def getText (docLines : List (List Char)) (r : Range) : String :=
  if r.start.line == r.stop.line then
    ⟨((lineChars docLines r.start.line).take r.stop.character).drop r.start.character⟩
  else
    ⟨joinWithNewline
      (((lineChars docLines r.start.line).drop r.start.character)
        :: ((docLines.drop (r.start.line + 1)).take (r.stop.line - r.start.line - 1)
        ++ [(lineChars docLines r.stop.line).take r.stop.character]))⟩

/-- The `wantKind` value of `detectCurrentBlock`: a single kind for
`'class'`, an array of kinds otherwise
(`Array.isArray(wantKind) ? includes : ===`). -/
inductive WantKind where
  | single (k : SymbolKind)
  | multi (ks : List SymbolKind)

def wantKindOf (blockType : String) : WantKind :=
  if blockType == "class" then .single .Class
  else .multi [.Function, .Method]

def kindMatch : WantKind → SymbolKind → Bool
  | .single k, kk => kk == k
  | .multi ks, kk => ks.contains kk

/-- The `.sort((a, b) => rangeSize(a.sym.range) - rangeSize(b.sym.range))`
comparator as a `Bool` order. -/
def entryLe (a b : Entry) : Bool :=
  rangeSize a.sym.range ≤ rangeSize b.sym.range

/-- The two `.filter` stages of `detectCurrentBlock` over the flattened
tree: entries whose range contains the cursor, then entries of the
desired kind — in flattening order. -/
def matchingEntries (blockType : String) (symbols : List Symbol) (cursor : Pos) : List Entry :=
  ((walkFlat symbols []).filter fun e => inRange cursor e.sym.range).filter
    fun e => kindMatch (wantKindOf blockType) e.sym.kind

/-- codeParser.js `Selection.detectCurrentBlock`, as a state transformer
on the `Selection` fields.  `sort(...)[0]` of the matching entries is the
head of the stable sort by `rangeSize`; when it is `undefined` only
`cursorInSelection` is cleared, otherwise the block fields are filled in
(`cursorInSelection` is left untouched on that path). -/
def detectCurrentBlock (sel : Selection) (docLines : List (List Char))
    (symbols : List Symbol) (cursor : Pos) : Selection :=
  match (insertionSort entryLe (matchingEntries sel.blockType symbols cursor)).head? with
  | none => { sel with cursorInSelection := false }
  | some e =>
      { sel with
        name := e.sym.name
        firstLine := docLines.get? e.sym.range.start.line
        lastLine := docLines.get? e.sym.range.stop.line
        text := getText docLines e.sym.range
        selectionInClass := e.parent.any fun p => p.kind == SymbolKind.Class }

/-! Spec-side tree addressing for the flattening claim: a node of a symbol
forest is addressed by its path of child indices, listed in pre-order. -/

def defaultSymbol : Symbol := .mk "" .Other ⟨⟨0, 0⟩, ⟨0, 0⟩⟩ []

instance : Inhabited Symbol := ⟨defaultSymbol⟩

/-- Bump the leading index of an address (used to step past a root). -/
def shiftPos : List Nat → List Nat
  | [] => []
  | i :: q => (i + 1) :: q

/-- All node addresses of a forest, in depth-first pre-order: each root
before its descendants, subtrees in child order. -/
def posForest : List Symbol → List (List Nat)
  | [] => []
  | s :: rest =>
      (([] :: posForest s.children).map fun p => 0 :: p)
        ++ (posForest rest).map shiftPos
termination_by ts => sizeOf ts
decreasing_by all_goals (have hlt := Symbol.sizeOf_children_lt s; simp; try omega)

/-- The node of a forest at an address, if any. -/
def nodeAt : List Symbol → List Nat → Option Symbol
  | _, [] => none
  | ts, [i] => ts.get? i
  | ts, i :: j :: p =>
      match ts.get? i with
      | none => none
      | some s => nodeAt s.children (j :: p)

/-- The chain of symbols from a root of the forest down to (but not
including) the node at an address. -/
def pathTo : List Symbol → List Nat → List Symbol
  | _, [] => []
  | _, [_] => []
  | ts, i :: j :: p =>
      match ts.get? i with
      | none => []
      | some s => s :: pathTo s.children (j :: p)

/-- Strict lexicographic `<` on positions (what `isBefore`/`isAfter`
decide). -/
def posLexLt (p q : Pos) : Prop :=
  p.line < q.line ∨ (p.line = q.line ∧ p.character < q.character)

instance (p q : Pos) : Decidable (posLexLt p q) := by
  unfold posLexLt; infer_instance

/-- The display-name rule exactly as the spec states it: trimmed ancestor
names and the trimmed own name joined with `::`, with all empty segments
dropped, and the placeholder when the chain is empty. -/
def specDisplayName (e : Entry) : String :=
  let segs := ((e.parent.map fun p => jsTrim p.name) ++ [jsTrim e.sym.name]).filter
    fun seg => seg ≠ ""
  if segs.isEmpty then "(unnamed)" else joinSep "::" segs

/-- The display-name rule amended to the source behaviour: empty segments
are dropped among the ancestors only, while the own name is appended
trimmed whenever the raw name is non-empty — even when it trims to the
empty segment; the placeholder is used when the join is empty. -/
def specDisplayNameAmended (e : Entry) : String :=
  let segs := ((e.parent.map fun p => jsTrim p.name).filter fun seg => seg ≠ "")
    ++ (if e.sym.name = "" then [] else [jsTrim e.sym.name])
  if joinSep "::" segs = "" then "(unnamed)" else joinSep "::" segs

/-! The spec's walkthrough scenario (§8) and the fallback counterexample
inputs, as concrete data. -/

/-- `Method "foo" [2,2]-[4,2]`. -/
def demoFoo : Symbol := .mk "foo" .Method ⟨⟨2, 2⟩, ⟨4, 2⟩⟩ []

/-- `Class "A" [0,0]-[10,0] { Method "foo" [2,2]-[4,2] }`. -/
def demoClassA : Symbol := .mk "A" .Class ⟨⟨0, 0⟩, ⟨10, 0⟩⟩ [demoFoo]

/-- A provider symbol of a non-jumpable kind. -/
def demoVariable : Symbol := .mk "x" .Variable ⟨⟨0, 0⟩, ⟨0, 1⟩⟩ []

/-- A three-line python document whose last line is `def greet():`. -/
def demoPyLines : List (List Char) :=
  [['x'], [], ['d', 'e', 'f', ' ', 'g', 'r', 'e', 'e', 't', '(', ')', ':']]

/-- A flattened entry whose own raw name is whitespace, inside class
`A`. -/
def demoBlankEntry : Entry :=
  ⟨.mk "  " .Method ⟨⟨5, 0⟩, ⟨6, 0⟩⟩ [], [demoClassA]⟩

end EchoCode

namespace EchoCode

/-! Generic facts about the stable insertion sort and about `find?`. -/

theorem mem_orderedInsert {le : α → α → Bool} {a b : α} :
    ∀ {l : List α}, b ∈ orderedInsert le a l ↔ b = a ∨ b ∈ l
  | [] => by simp [orderedInsert]
  | c :: l => by
      by_cases h : le a c
      · simp [orderedInsert, h]
      · simp only [orderedInsert, if_neg h, List.mem_cons, mem_orderedInsert (l := l)]
        tauto

theorem length_orderedInsert {le : α → α → Bool} {a : α} :
    ∀ {l : List α}, (orderedInsert le a l).length = l.length + 1
  | [] => rfl
  | c :: l => by
      by_cases h : le a c
      · simp [orderedInsert, h]
      · simp [orderedInsert, h, length_orderedInsert (l := l)]

theorem mem_insertionSort {le : α → α → Bool} {b : α} :
    ∀ {l : List α}, b ∈ insertionSort le l ↔ b ∈ l
  | [] => by simp [insertionSort]
  | c :: l => by
      simp [insertionSort, mem_orderedInsert, mem_insertionSort (l := l)]

theorem length_insertionSort {le : α → α → Bool} :
    ∀ {l : List α}, (insertionSort le l).length = l.length
  | [] => rfl
  | c :: l => by
      simp [insertionSort, length_orderedInsert, length_insertionSort (l := l)]

theorem pairwise_orderedInsert {le : α → α → Bool}
    (htot : ∀ x y, le x y = true ∨ le y x = true)
    (htrans : ∀ x y z, le x y = true → le y z = true → le x z = true) (a : α) :
    ∀ {l : List α}, l.Pairwise (fun x y => le x y = true) →
      (orderedInsert le a l).Pairwise (fun x y => le x y = true)
  | [], _ => by simp [orderedInsert]
  | c :: l, h => by
      rcases List.pairwise_cons.mp h with ⟨hc, hl⟩
      by_cases hac : le a c
      · rw [orderedInsert, if_pos hac]
        refine List.pairwise_cons.mpr ⟨?_, h⟩
        intro b hb
        rcases List.mem_cons.mp hb with rfl | hb
        · exact hac
        · exact htrans a c b hac (hc b hb)
      · rw [orderedInsert, if_neg hac]
        refine List.pairwise_cons.mpr ⟨?_, pairwise_orderedInsert htot htrans a hl⟩
        intro b hb
        rcases mem_orderedInsert.mp hb with rfl | hb
        · rcases htot b c with h' | h'
          · exact absurd h' hac
          · exact h'
        · exact hc b hb

theorem pairwise_insertionSort {le : α → α → Bool}
    (htot : ∀ x y, le x y = true ∨ le y x = true)
    (htrans : ∀ x y z, le x y = true → le y z = true → le x z = true) :
    ∀ (l : List α), (insertionSort le l).Pairwise (fun x y => le x y = true)
  | [] => by simp [insertionSort]
  | c :: l => pairwise_orderedInsert htot htrans c (pairwise_insertionSort htot htrans l)

/-- The head of the stable sort is the first element of the input that
attains the minimum: it is minimal for `le`, and every input element
strictly before it in input order fails `le _ head` (is strictly
greater). -/
theorem insertionSort_head_first_min {le : α → α → Bool}
    (htot : ∀ x y, le x y = true ∨ le y x = true)
    (htrans : ∀ x y z, le x y = true → le y z = true → le x z = true) :
    ∀ (l : List α), l ≠ [] →
      ∃ (i : Nat) (m : α), l[i]? = some m ∧ (insertionSort le l).head? = some m ∧
        (∀ b ∈ l, le m b = true) ∧
        (∀ j, j < i → ∀ b, l[j]? = some b → le b m = false)
  | [], h => absurd rfl h
  | [a], _ => by
      have hrefl : le a a = true := by rcases htot a a with h' | h' <;> exact h'
      refine ⟨0, a, rfl, rfl, ?_, fun j hj => absurd hj (Nat.not_lt_zero j)⟩
      intro b hb
      have hb' : b = a := by simpa using hb
      subst hb'
      exact hrefl
  | a :: c :: l, _ => by
      obtain ⟨i, m, hget, hhead, hmin, hfirst⟩ :=
        insertionSort_head_first_min htot htrans (c :: l) (by simp)
      rcases hs : insertionSort le (c :: l) with _ | ⟨m', s⟩
      · exact absurd (congrArg List.length hs) (by simp [length_insertionSort])
      · rw [hs] at hhead
        obtain rfl : m = m' := by simpa using hhead.symm
        by_cases ham : le a m
        · have hrefl : le a a = true := by rcases htot a a with h' | h' <;> exact h'
          refine ⟨0, a, rfl, ?_, ?_, fun j hj => absurd hj (Nat.not_lt_zero j)⟩
          · show (insertionSort le (a :: c :: l)).head? = some a
            rw [insertionSort, hs, orderedInsert, if_pos ham]
            rfl
          · intro b hb
            rcases List.mem_cons.mp hb with rfl | hb
            · exact hrefl
            · exact htrans a m b ham (hmin b hb)
        · refine ⟨i + 1, m, by simpa using hget, ?_, ?_, ?_⟩
          · show (insertionSort le (a :: c :: l)).head? = some m
            rw [insertionSort, hs, orderedInsert, if_neg ham]
            rfl
          · intro b hb
            rcases List.mem_cons.mp hb with rfl | hb
            · rcases htot b m with h' | h'
              · exact absurd h' ham
              · exact h'
            · exact hmin b hb
          · intro j hj b hgb
            match j, hgb with
            | 0, hgb =>
                have hba : a = b := by simpa using hgb
                subst hba
                exact Bool.eq_false_iff.mpr ham
            | j' + 1, hgb =>
                exact hfirst j' (by omega) b (by simpa using hgb)

/-- `find?` returns the first element satisfying the predicate: its index
characterization. -/
theorem find?_first {p : α → Bool} :
    ∀ (l : List α) (a : α), l.find? p = some a →
      ∃ i : Nat, l[i]? = some a ∧ p a = true ∧
        ∀ j : Nat, j < i → ∀ b, l[j]? = some b → p b = false
  | [], a, h => by simp [List.find?] at h
  | c :: l, a, h => by
      by_cases hc : p c
      · rw [List.find?_cons_of_pos _ hc] at h
        obtain rfl : c = a := Option.some.inj h
        exact ⟨0, by simp, hc, fun j hj => absurd hj (Nat.not_lt_zero j)⟩
      · rw [List.find?_cons_of_neg _ (by simpa using hc)] at h
        obtain ⟨i, hget, hpa, hfirst⟩ := find?_first l a h
        refine ⟨i + 1, by simpa using hget, hpa, ?_⟩
        intro j hj b hgb
        match j, hgb with
        | 0, hgb =>
            have hbc : c = b := by simpa using hgb
            subst hbc
            exact Bool.eq_false_iff.mpr hc
        | j' + 1, hgb => exact hfirst j' (by omega) b (by simpa using hgb)

/-! Facts about the pre-order address list `posForest` and its agreement
with the source flattening. -/

theorem posForest_ne_nil (ts : List Symbol) : ∀ p ∈ posForest ts, p ≠ [] := by
  induction ts with
  | nil => intro p hp; simp [posForest] at hp
  | cons s rest ih =>
      intro p hp
      simp only [posForest] at hp
      rcases List.mem_append.mp hp with hp | hp
      · rcases List.mem_map.mp hp with ⟨q, _, rfl⟩
        simp
      · rcases List.mem_map.mp hp with ⟨q, hq, rfl⟩
        have hq' := ih q hq
        match q, hq' with
        | j :: q', _ => simp [shiftPos]

theorem nodeAt_cons_succ (s : Symbol) (rest : List Symbol) (j : Nat) (p : List Nat) :
    nodeAt (s :: rest) ((j + 1) :: p) = nodeAt rest (j :: p) := by
  cases p <;> rfl

theorem pathTo_cons_succ (s : Symbol) (rest : List Symbol) (j : Nat) (p : List Nat) :
    pathTo (s :: rest) ((j + 1) :: p) = pathTo rest (j :: p) := by
  cases p <;> rfl

theorem nodeAt_cons_zero (s : Symbol) (rest : List Symbol) (j : Nat) (p : List Nat) :
    nodeAt (s :: rest) (0 :: j :: p) = nodeAt s.children (j :: p) := rfl

theorem pathTo_cons_zero (s : Symbol) (rest : List Symbol) (j : Nat) (p : List Nat) :
    pathTo (s :: rest) (0 :: j :: p) = s :: pathTo s.children (j :: p) := rfl

/-- The source flattening agrees, entry by entry, with the pre-order
address list: the entry at address `p` carries the node at `p` and the
ancestor chain of `p` (appended to the accumulator). -/
theorem flattenSymbols_eq_posForest : ∀ (ts anc : List Symbol),
    flattenSymbols ts anc = (posForest ts).map
      (fun p => { sym := (nodeAt ts p).getD defaultSymbol,
                  parent := anc ++ pathTo ts p })
  | [], anc => by simp [flattenSymbols, posForest]
  | s :: rest, anc => by
      have ihc := flattenSymbols_eq_posForest s.children (anc ++ [s])
      have ihr := flattenSymbols_eq_posForest rest anc
      simp only [flattenSymbols, posForest]
      rw [List.map_append, List.map_map, List.map_map, List.map_cons]
      refine congrArg₂ List.cons ?_ (congrArg₂ HAppend.hAppend ?_ ?_)
      · show Entry.mk s anc =
          { sym := (nodeAt (s :: rest) [0]).getD defaultSymbol,
            parent := anc ++ pathTo (s :: rest) [0] }
        simp [nodeAt, pathTo]
      · rw [ihc]
        refine List.map_congr_left ?_
        intro p hp
        have hne := posForest_ne_nil s.children p hp
        match p, hne with
        | j :: p', _ =>
            show Entry.mk ((nodeAt s.children (j :: p')).getD defaultSymbol)
                ((anc ++ [s]) ++ pathTo s.children (j :: p')) =
              Entry.mk ((nodeAt (s :: rest) (0 :: j :: p')).getD defaultSymbol)
                (anc ++ pathTo (s :: rest) (0 :: j :: p'))
            rw [nodeAt_cons_zero, pathTo_cons_zero]
            simp [List.append_assoc]
      · rw [ihr]
        refine List.map_congr_left ?_
        intro p hp
        have hne := posForest_ne_nil rest p hp
        match p, hne with
        | j :: p', _ =>
            show Entry.mk ((nodeAt rest (j :: p')).getD defaultSymbol)
                (anc ++ pathTo rest (j :: p')) =
              Entry.mk ((nodeAt (s :: rest) (shiftPos (j :: p'))).getD defaultSymbol)
                (anc ++ pathTo (s :: rest) (shiftPos (j :: p')))
            simp only [shiftPos, nodeAt_cons_succ, pathTo_cons_succ]
termination_by ts _ => sizeOf ts
decreasing_by all_goals (have hlt := Symbol.sizeOf_children_lt s; simp; try omega)

/-- No address is listed twice. -/
theorem posForest_nodup : ∀ ts : List Symbol, (posForest ts).Nodup
  | [] => by simp [posForest]
  | s :: rest => by
      have ihc := posForest_nodup s.children
      have ihr := posForest_nodup rest
      simp only [posForest]
      refine List.Nodup.append ?_ ?_ ?_
      · refine List.Nodup.map (fun p q h => ?_) ?_
        · exact (List.cons.injEq 0 p 0 q ▸ h).2
        · exact List.nodup_cons.mpr
            ⟨fun hmem => posForest_ne_nil _ _ hmem rfl, ihc⟩
      · refine List.Nodup.map_on (fun p hp q hq h => ?_) ihr
        have hpne := posForest_ne_nil rest p hp
        have hqne := posForest_ne_nil rest q hq
        match p, q, hpne, hqne with
        | j :: p', k :: q', _, _ =>
            simp only [shiftPos, List.cons.injEq] at h
            exact List.cons.injEq .. ▸ ⟨by omega, h.2⟩
      · intro a ha hb
        rcases List.mem_map.mp ha with ⟨p, _, rfl⟩
        rcases List.mem_map.mp hb with ⟨q, hq, hsq⟩
        have hqne := posForest_ne_nil rest q hq
        match q, hqne with
        | k :: q', _ => simp [shiftPos] at hsq
termination_by ts => sizeOf ts
decreasing_by all_goals (have hlt := Symbol.sizeOf_children_lt s; simp; try omega)

/-- An address is listed exactly when it addresses a node of the forest. -/
theorem mem_posForest_iff : ∀ (ts : List Symbol) (p : List Nat),
    p ∈ posForest ts ↔ (nodeAt ts p).isSome
  | [], p => by
      match p with
      | [] => simp [posForest, nodeAt]
      | [i] => simp [posForest, nodeAt]
      | i :: j :: q => simp [posForest, nodeAt]
  | s :: rest, p => by
      have ihc := fun q => mem_posForest_iff s.children q
      have ihr := fun q => mem_posForest_iff rest q
      simp only [posForest, List.mem_append, List.mem_map, List.mem_cons]
      match p with
      | [] =>
          constructor
          · rintro (⟨r, _, hrq⟩ | ⟨r, hr, hrq⟩)
            · simp at hrq
            · have hne := posForest_ne_nil rest r hr
              match r, hne with
              | k :: r', _ => simp [shiftPos] at hrq
          · intro h
            simp [nodeAt] at h
      | 0 :: q =>
          match q with
          | [] =>
              simp only [nodeAt, List.get?]
              constructor
              · intro _; rfl
              · intro _
                exact Or.inl ⟨[], Or.inl rfl, rfl⟩
          | j :: q' =>
              rw [nodeAt_cons_zero, ← ihc (j :: q')]
              constructor
              · rintro (⟨r, hr | hr, hrq⟩ | ⟨r, hr, hrq⟩)
                · rw [hr] at hrq
                  injection hrq with _ h2
                  exact absurd h2 (by simp)
                · injection hrq with _ h2
                  rw [h2] at hr
                  exact hr
                · have hne := posForest_ne_nil rest r hr
                  match r, hne with
                  | k :: r', _ =>
                      injection hrq with h1 _
                      exact absurd h1 (by simp [shiftPos])
              · intro h
                exact Or.inl ⟨j :: q', Or.inr h, rfl⟩
      | (j + 1) :: q =>
          rw [nodeAt_cons_succ, ← ihr (j :: q)]
          constructor
          · rintro (⟨r, _, hrq⟩ | ⟨r, hr, hrq⟩)
            · injection hrq with h1 _
              exact absurd h1 (by omega)
            · have hne := posForest_ne_nil rest r hr
              match r, hne with
              | k :: r', _ =>
                  simp only [shiftPos] at hrq
                  injection hrq with h1 h2
                  obtain rfl : k = j := by omega
                  rw [h2] at hr
                  exact hr
          · intro h
            exact Or.inr ⟨j :: q, h, rfl⟩
termination_by ts _ => sizeOf ts
decreasing_by all_goals (have hlt := Symbol.sizeOf_children_lt s; simp; try omega)

/-- C9: `inRange` is exactly membership in the closed lexicographic
interval `[start, end]` whenever `start <= end` lexicographically. -/
theorem inRange_iff_lex_mem (r : Range) (p : Pos) (h : posLexLe r.start r.stop) :
    inRange p r = true ↔ (posLexLe r.start p ∧ posLexLe p r.stop) := by
  rcases p with ⟨pl, pc⟩
  rcases r with ⟨⟨sl, sc⟩, ⟨el, ec⟩⟩
  simp only [posLexLe] at *
  unfold inRange
  split_ifs with hA hB hC <;> simp_all <;> omega

/-- C9 witness. -/
theorem inRange_iff_lex_mem_witness :
    posLexLe (⟨1, 3⟩ : Pos) ⟨4, 2⟩ ∧
      (inRange ⟨2, 0⟩ ⟨⟨1, 3⟩, ⟨4, 2⟩⟩ = true ↔
        (posLexLe ⟨1, 3⟩ ⟨2, 0⟩ ∧ posLexLe ⟨2, 0⟩ ⟨4, 2⟩)) :=
  ⟨by decide, inRange_iff_lex_mem ⟨⟨1, 3⟩, ⟨4, 2⟩⟩ ⟨2, 0⟩ (by decide)⟩

/-- Linearise a position into the scalar used by `rangeSize`; lexicographic
order embeds into it when every column is below 10000. -/
def posKey (p : Pos) : Int :=
  (p.line : Int) * 10000 + (p.character : Int)

theorem posKey_mono {p q : Pos} (hp : p.character < 10000) (hq : q.character < 10000)
    (h : posLexLe p q) : posKey p ≤ posKey q := by
  rcases p with ⟨pl, pc⟩
  rcases q with ⟨ql, qc⟩
  simp only [posLexLe] at h
  simp only [posKey] at *
  omega

theorem rangeSize_eq_keys (r : Range) : rangeSize r = posKey r.stop - posKey r.start := by
  simp [rangeSize, posKey]; ring

/-- C10: `rangeSize` is monotone with respect to range nesting, provided
every column stays below the 10000 scaling constant. -/
theorem rangeSize_mono_nested (r1 r2 : Range)
    (hc1s : r1.start.character < 10000) (hc1e : r1.stop.character < 10000)
    (hc2s : r2.start.character < 10000) (hc2e : r2.stop.character < 10000)
    (_h1 : posLexLe r1.start r1.stop) (_h2 : posLexLe r2.start r2.stop)
    (hs : posLexLe r2.start r1.start) (he : posLexLe r1.stop r2.stop) :
    rangeSize r1 ≤ rangeSize r2 := by
  have k1 : posKey r2.start ≤ posKey r1.start := posKey_mono hc2s hc1s hs
  have k2 : posKey r1.stop ≤ posKey r2.stop := posKey_mono hc1e hc2e he
  rw [rangeSize_eq_keys, rangeSize_eq_keys]
  omega

/-- C10 witness. -/
theorem rangeSize_mono_nested_witness :
    rangeSize ⟨⟨2, 2⟩, ⟨4, 2⟩⟩ ≤ rangeSize ⟨⟨0, 0⟩, ⟨10, 0⟩⟩ :=
  rangeSize_mono_nested ⟨⟨2, 2⟩, ⟨4, 2⟩⟩ ⟨⟨0, 0⟩, ⟨10, 0⟩⟩
    (by decide) (by decide) (by decide) (by decide)
    (by decide) (by decide) (by decide) (by decide)

/-! Small facts about the position orders and the two sort comparators. -/

theorem posLexLe_refl (p : Pos) : posLexLe p p := Or.inr ⟨rfl, le_refl _⟩

theorem targetLe_iff (a b : JumpTarget) :
    targetLe a b = true ↔ posLexLe a.position b.position := by
  unfold targetLe posLexLe
  by_cases h : a.position.line = b.position.line
  · simp [h]
  · simp [h]
    omega

theorem targetLe_total (a b : JumpTarget) : targetLe a b = true ∨ targetLe b a = true := by
  simp only [targetLe_iff]
  unfold posLexLe
  omega

theorem targetLe_trans (a b c : JumpTarget) :
    targetLe a b = true → targetLe b c = true → targetLe a c = true := by
  simp only [targetLe_iff]
  unfold posLexLe
  omega

theorem entryLe_total (a b : Entry) : entryLe a b = true ∨ entryLe b a = true := by
  unfold entryLe
  simp only [decide_eq_true_eq]
  omega

theorem entryLe_trans (a b c : Entry) :
    entryLe a b = true → entryLe b c = true → entryLe a c = true := by
  unfold entryLe
  simp only [decide_eq_true_eq]
  omega

theorem isAfter_iff (p q : Pos) : Pos.isAfter p q = true ↔ posLexLt q p := by
  unfold Pos.isAfter posLexLt
  simp

theorem isBefore_iff (p q : Pos) : Pos.isBefore p q = true ↔ posLexLt p q := by
  unfold Pos.isBefore posLexLt
  simp

/-- In a list sorted for `R`, the element `find?` returns is `R`-below
every element of the list that satisfies the predicate. -/
theorem find?_min_of_sorted {R : α → α → Prop} {p : α → Bool} {l : List α} {a : α}
    (hsorted : l.Pairwise R) (hrefl : ∀ x ∈ l, R x x) (hf : l.find? p = some a) :
    ∀ u ∈ l, p u = true → R a u := by
  obtain ⟨i, hget, _, hfirst⟩ := find?_first l a hf
  intro u hu hpu
  obtain ⟨j, hj⟩ := List.mem_iff_getElem?.mp hu
  rcases Nat.lt_trichotomy j i with hji | rfl | hij
  · exact absurd hpu (by simp [hfirst j hji u hj])
  · obtain rfl : a = u := by rw [hget] at hj; exact Option.some.inj hj
    exact hrefl a hu
  · obtain ⟨hilen, hgi⟩ := List.getElem?_eq_some_iff.mp hget
    obtain ⟨hjlen, hgj⟩ := List.getElem?_eq_some_iff.mp hj
    have := List.pairwise_iff_getElem.mp hsorted i j hilen hjlen hij
    rw [hgi, hgj] at this
    exact this

/-- C2: the flattening visits every node of the (finite, acyclic) symbol
forest exactly once, in depth-first pre-order preserving child order, and
each entry's ancestor chain is the path of symbols from its root down to
(but not including) the entry's own symbol; `codeParser.walk` computes the
same list as `flattenSymbols`. -/
theorem flatten_preorder_exact (ts : List Symbol) :
    flattenSymbols ts [] = (posForest ts).map
      (fun p => { sym := (nodeAt ts p).getD defaultSymbol, parent := pathTo ts p }) ∧
    (posForest ts).Nodup ∧
    (∀ p : List Nat, p ∈ posForest ts ↔ (nodeAt ts p).isSome) ∧
    walkFlat ts [] = flattenSymbols ts [] := by
  refine ⟨?_, posForest_nodup ts, mem_posForest_iff ts, walkFlat_eq_flattenSymbols ts []⟩
  have h := flattenSymbols_eq_posForest ts []
  simpa using h

/-- C4: whatever the order of the jumpable symbols in the flattened list,
the jump targets built on the provider path of `getJumpTargets` are sorted
ascending by position (line first, then column). -/
theorem providerTargets_sorted_by_position (symbols : List Symbol) :
    (providerTargets symbols).Pairwise fun a b => posLexLe a.position b.position := by
  have h := pairwise_insertionSort targetLe_total targetLe_trans
    (((flattenSymbols symbols []).filter fun e => isJumpableKind e.sym.kind).map
      fun e => { position := getPositionFromRange e.sym.range, name := prettyName e })
  exact h.imp fun hab => (targetLe_iff _ _).mp hab

/-- C1: whenever at least one flattened entry of the desired kind-set
contains the cursor, `detectCurrentBlock` selects the matching entry of
minimum `rangeSize` — strictly earlier matching entries, in flattening
order, all have strictly larger size on a tie — and fills the selection
fields from it. -/
theorem detectCurrentBlock_innermost (sel : Selection) (docLines : List (List Char))
    (symbols : List Symbol) (cursor : Pos)
    (hne : matchingEntries sel.blockType symbols cursor ≠ []) :
    ∃ (i : Nat) (e : Entry),
      (matchingEntries sel.blockType symbols cursor)[i]? = some e ∧
      (∀ e' ∈ matchingEntries sel.blockType symbols cursor,
        rangeSize e.sym.range ≤ rangeSize e'.sym.range) ∧
      (∀ j : Nat, j < i → ∀ e',
        (matchingEntries sel.blockType symbols cursor)[j]? = some e' →
        rangeSize e.sym.range < rangeSize e'.sym.range) ∧
      detectCurrentBlock sel docLines symbols cursor =
        { sel with
          name := e.sym.name
          firstLine := docLines.get? e.sym.range.start.line
          lastLine := docLines.get? e.sym.range.stop.line
          text := getText docLines e.sym.range
          selectionInClass := e.parent.any fun p => p.kind == SymbolKind.Class } := by
  obtain ⟨i, m, hget, hhead, hmin, hfirst⟩ :=
    insertionSort_head_first_min entryLe_total entryLe_trans _ hne
  refine ⟨i, m, hget, ?_, ?_, ?_⟩
  · intro e' he'
    have h := hmin e' he'
    unfold entryLe at h
    simpa using h
  · intro j hj e' hget'
    have h := hfirst j hj e' hget'
    unfold entryLe at h
    simp at h
    omega
  · unfold detectCurrentBlock
    rw [hhead]

/-- C1 witness: the spec scenario, desired kind Function/Method, cursor
`(3,0)` inside `foo`. -/
theorem detectCurrentBlock_innermost_witness :
    matchingEntries "function" [demoClassA] ⟨3, 0⟩ ≠ [] ∧
    (∃ (i : Nat) (e : Entry),
      (matchingEntries "function" [demoClassA] ⟨3, 0⟩)[i]? = some e ∧
      (∀ e' ∈ matchingEntries "function" [demoClassA] ⟨3, 0⟩,
        rangeSize e.sym.range ≤ rangeSize e'.sym.range) ∧
      (∀ j : Nat, j < i → ∀ e',
        (matchingEntries "function" [demoClassA] ⟨3, 0⟩)[j]? = some e' →
        rangeSize e.sym.range < rangeSize e'.sym.range) ∧
      detectCurrentBlock { blockType := "function" } [] [demoClassA] ⟨3, 0⟩ =
        { Selection.mk none none true "function" "" "" false with
          name := e.sym.name
          firstLine := ([] : List (List Char)).get? e.sym.range.start.line
          lastLine := ([] : List (List Char)).get? e.sym.range.stop.line
          text := getText [] e.sym.range
          selectionInClass := e.parent.any fun p => p.kind == SymbolKind.Class }) := by
  have hw : walkFlat [demoClassA] [] = [⟨demoClassA, []⟩, ⟨demoFoo, [demoClassA]⟩] := by
    simp [walkFlat, demoClassA, demoFoo, Symbol.children]
  have hme : matchingEntries "function" [demoClassA] ⟨3, 0⟩ = [⟨demoFoo, [demoClassA]⟩] := by
    unfold matchingEntries
    rw [hw]
    rfl
  have hne : matchingEntries "function" [demoClassA] ⟨3, 0⟩ ≠ [] := by
    rw [hme]
    exact List.cons_ne_nil _ _
  exact ⟨hne, detectCurrentBlock_innermost { blockType := "function" } [] [demoClassA] ⟨3, 0⟩ hne⟩

/-- C3: on a non-empty, position-ascending target list, `next` moves to
the first target strictly after the cursor (the least such target) and
`previous` to the first target strictly before it in descending scan (the
greatest such); with no candidate in the requested direction the outcome
is the direction-specific report, distinct from the empty-list report, and
never a wrap to the other end. -/
theorem navigate_directional (targets : List JumpTarget) (cur : Pos)
    (hne : targets ≠ [])
    (hsorted : targets.Pairwise fun a b => posLexLe a.position b.position) :
    ((∃ t ∈ targets, posLexLt cur t.position) →
      ∃ t, navigate targets cur Direction.next = MoveOutcome.moved t Direction.next ∧
        t ∈ targets ∧ posLexLt cur t.position ∧
        ∀ u ∈ targets, posLexLt cur u.position → posLexLe t.position u.position) ∧
    ((∀ t ∈ targets, ¬posLexLt cur t.position) →
      navigate targets cur Direction.next = MoveOutcome.noTargetInDirection Direction.next) ∧
    ((∃ t ∈ targets, posLexLt t.position cur) →
      ∃ t, navigate targets cur Direction.previous = MoveOutcome.moved t Direction.previous ∧
        t ∈ targets ∧ posLexLt t.position cur ∧
        ∀ u ∈ targets, posLexLt u.position cur → posLexLe u.position t.position) ∧
    ((∀ t ∈ targets, ¬posLexLt t.position cur) →
      navigate targets cur Direction.previous =
        MoveOutcome.noTargetInDirection Direction.previous) ∧
    (∀ dir, navigate targets cur dir ≠ MoveOutcome.noSymbols) := by
  have hlen : ¬targets.length = 0 := by
    simpa [List.length_eq_zero] using hne
  have hnav : ∀ dir, navigate targets cur dir =
      match pickTarget targets cur dir with
      | none => MoveOutcome.noTargetInDirection dir
      | some t => MoveOutcome.moved t dir := by
    intro dir
    unfold navigate
    rw [if_neg hlen]
  have hrevsorted : targets.reverse.Pairwise fun a b => posLexLe b.position a.position :=
    List.pairwise_reverse.mpr hsorted
  refine ⟨?_, ?_, ?_, ?_, ?_⟩
  · intro hex
    have hsome : (targets.find? fun t => t.position.isAfter cur).isSome := by
      refine List.find?_isSome.mpr ?_
      obtain ⟨t, ht, hlt⟩ := hex
      exact ⟨t, ht, (isAfter_iff _ _).mpr hlt⟩
    obtain ⟨t, hf⟩ := Option.isSome_iff_exists.mp hsome
    have hpt : t.position.isAfter cur = true := by
      have h := List.find?_some hf
      simpa using h
    refine ⟨t, ?_, List.mem_of_find?_eq_some hf, (isAfter_iff _ _).mp hpt, ?_⟩
    · rw [hnav]
      show (match pickTarget targets cur Direction.next with
        | none => MoveOutcome.noTargetInDirection Direction.next
        | some t => MoveOutcome.moved t Direction.next) = _
      rw [show pickTarget targets cur Direction.next =
        targets.find? fun t => t.position.isAfter cur from rfl, hf]
    · intro u hu hult
      exact find?_min_of_sorted hsorted (fun x _ => posLexLe_refl x.position) hf u hu
        ((isAfter_iff _ _).mpr hult)
  · intro hall
    have hnone : (targets.find? fun t => t.position.isAfter cur) = none := by
      refine List.find?_eq_none.mpr ?_
      intro t ht
      simpa [isAfter_iff] using hall t ht
    rw [hnav]
    show (match pickTarget targets cur Direction.next with
      | none => MoveOutcome.noTargetInDirection Direction.next
      | some t => MoveOutcome.moved t Direction.next) = _
    rw [show pickTarget targets cur Direction.next =
      targets.find? fun t => t.position.isAfter cur from rfl, hnone]
  · intro hex
    have hsome : (targets.reverse.find? fun t => t.position.isBefore cur).isSome := by
      refine List.find?_isSome.mpr ?_
      obtain ⟨t, ht, hlt⟩ := hex
      exact ⟨t, List.mem_reverse.mpr ht, (isBefore_iff _ _).mpr hlt⟩
    obtain ⟨t, hf⟩ := Option.isSome_iff_exists.mp hsome
    have hpt : t.position.isBefore cur = true := by
      have h := List.find?_some hf
      simpa using h
    refine ⟨t, ?_, List.mem_reverse.mp (List.mem_of_find?_eq_some hf),
      (isBefore_iff _ _).mp hpt, ?_⟩
    · rw [hnav]
      show (match pickTarget targets cur Direction.previous with
        | none => MoveOutcome.noTargetInDirection Direction.previous
        | some t => MoveOutcome.moved t Direction.previous) = _
      rw [show pickTarget targets cur Direction.previous =
        targets.reverse.find? fun t => t.position.isBefore cur from rfl, hf]
    · intro u hu hult
      exact find?_min_of_sorted hrevsorted (fun x _ => posLexLe_refl x.position) hf u
        (List.mem_reverse.mpr hu) ((isBefore_iff _ _).mpr hult)
  · intro hall
    have hnone : (targets.reverse.find? fun t => t.position.isBefore cur) = none := by
      refine List.find?_eq_none.mpr ?_
      intro t ht
      simpa [isBefore_iff] using hall t (List.mem_reverse.mp ht)
    rw [hnav]
    show (match pickTarget targets cur Direction.previous with
      | none => MoveOutcome.noTargetInDirection Direction.previous
      | some t => MoveOutcome.moved t Direction.previous) = _
    rw [show pickTarget targets cur Direction.previous =
      targets.reverse.find? fun t => t.position.isBefore cur from rfl, hnone]
  · intro dir
    rw [hnav]
    rcases pickTarget targets cur dir with _ | t <;> simp

/-- C3 witness: the two-target demo list, cursor between the targets. -/
theorem navigate_directional_witness :
    ([⟨⟨0, 0⟩, "A"⟩, ⟨⟨2, 2⟩, "A::foo"⟩] : List JumpTarget) ≠ [] ∧
    (([⟨⟨0, 0⟩, "A"⟩, ⟨⟨2, 2⟩, "A::foo"⟩] : List JumpTarget).Pairwise
      fun a b => posLexLe a.position b.position) ∧
    ((∃ t ∈ ([⟨⟨0, 0⟩, "A"⟩, ⟨⟨2, 2⟩, "A::foo"⟩] : List JumpTarget),
        posLexLt ⟨1, 0⟩ t.position) →
      ∃ t, navigate [⟨⟨0, 0⟩, "A"⟩, ⟨⟨2, 2⟩, "A::foo"⟩] ⟨1, 0⟩ Direction.next =
          MoveOutcome.moved t Direction.next ∧
        t ∈ ([⟨⟨0, 0⟩, "A"⟩, ⟨⟨2, 2⟩, "A::foo"⟩] : List JumpTarget) ∧
        posLexLt ⟨1, 0⟩ t.position ∧
        ∀ u ∈ ([⟨⟨0, 0⟩, "A"⟩, ⟨⟨2, 2⟩, "A::foo"⟩] : List JumpTarget),
          posLexLt ⟨1, 0⟩ u.position → posLexLe t.position u.position) := by
  have h := navigate_directional [⟨⟨0, 0⟩, "A"⟩, ⟨⟨2, 2⟩, "A::foo"⟩] ⟨1, 0⟩
    (by simp) (by decide)
  exact ⟨by simp, by decide, h.1⟩

/-- C5 counterexample: for a document whose provider symbol list is
non-empty (one Variable) but yields no jumpable symbol, `getJumpTargets`
returns the regex scan of the text, not a tree-derived result. -/
theorem getJumpTargets_regex_despite_symbols :
    ([demoVariable] : List Symbol).length > 0 ∧
    providerTargets [demoVariable] = [] ∧
    getJumpTargets [demoVariable] demoPyLines = regexScan demoPyLines ∧
    regexScan demoPyLines = [⟨⟨2, 0⟩, "greet"⟩] := by
  have hflat : flattenSymbols [demoVariable] [] = [⟨demoVariable, []⟩] := by
    simp [flattenSymbols, demoVariable, Symbol.children]
  have hpt : providerTargets [demoVariable] = [] := by
    unfold providerTargets
    rw [hflat]
    rfl
  refine ⟨by simp, hpt, ?_, by rfl⟩
  unfold getJumpTargets
  rw [hpt]
  rfl

/-- C5 amended: the regex fallback is skipped exactly when the provider
path produces at least one jump target — for a non-empty symbol list whose
jumpable entries are non-empty, the result is the tree-derived list, never
the regex scan. -/
theorem getJumpTargets_provider_priority (symbols : List Symbol)
    (docLines : List (List Char)) (hsym : symbols ≠ [])
    (htg : providerTargets symbols ≠ []) :
    getJumpTargets symbols docLines = providerTargets symbols := by
  unfold getJumpTargets
  rw [if_pos (List.length_pos.mpr hsym), if_pos (List.length_pos.mpr htg)]

/-- C5 amended witness. -/
theorem getJumpTargets_provider_priority_witness :
    ([demoClassA] : List Symbol) ≠ [] ∧ providerTargets [demoClassA] ≠ [] ∧
    getJumpTargets [demoClassA] demoPyLines = providerTargets [demoClassA] := by
  have hflat : flattenSymbols [demoClassA] [] = [⟨demoClassA, []⟩, ⟨demoFoo, [demoClassA]⟩] := by
    simp [flattenSymbols, demoClassA, demoFoo, Symbol.children]
  have hpt : providerTargets [demoClassA] = [⟨⟨0, 0⟩, "A"⟩, ⟨⟨2, 2⟩, "A::foo"⟩] := by
    unfold providerTargets
    rw [hflat]
    rfl
  have htg : providerTargets [demoClassA] ≠ [] := by
    rw [hpt]
    exact List.cons_ne_nil _ _
  exact ⟨List.cons_ne_nil _ _, htg,
    getJumpTargets_provider_priority [demoClassA] demoPyLines (List.cons_ne_nil _ _) htg⟩

/-- C6 counterexample: with a whitespace-only raw own name under class
`A`, `prettyName` keeps the empty trailing segment and yields `"A::"`,
while the spec's all-empty-segments-dropped rule yields `"A"`. -/
theorem prettyName_keeps_empty_own_segment :
    prettyName demoBlankEntry = "A::" ∧
    specDisplayName demoBlankEntry = "A" ∧
    prettyName demoBlankEntry ≠ specDisplayName demoBlankEntry := by
  refine ⟨by decide, by decide, by decide⟩

/-- C6 amended: ancestor segments are trimmed with empty ones dropped,
but the own name is appended trimmed whenever the raw name is non-empty
(even when it trims to an empty segment); the placeholder `"(unnamed)"`
is used exactly when the join is empty. -/
theorem prettyName_eq_amended_rule (e : Entry) :
    prettyName e = specDisplayNameAmended e := by
  unfold prettyName specDisplayNameAmended
  by_cases h : e.sym.name = "" <;> simp [h]

/-- C7 counterexample: the scenario tree yields two jump targets —
`Class` is a jumpable kind, so `A` itself is a target at `(0,0)` — not
the claimed one-element list. -/
theorem demo_jump_targets_not_singleton :
    getJumpTargets [demoClassA] [] = [⟨⟨0, 0⟩, "A"⟩, ⟨⟨2, 2⟩, "A::foo"⟩] ∧
    getJumpTargets [demoClassA] [] ≠ [⟨⟨2, 2⟩, "A::foo"⟩] := by
  have hflat : flattenSymbols [demoClassA] [] = [⟨demoClassA, []⟩, ⟨demoFoo, [demoClassA]⟩] := by
    simp [flattenSymbols, demoClassA, demoFoo, Symbol.children]
  have h : getJumpTargets [demoClassA] [] = [⟨⟨0, 0⟩, "A"⟩, ⟨⟨2, 2⟩, "A::foo"⟩] := by
    unfold getJumpTargets providerTargets
    rw [hflat]
    rfl
  exact ⟨h, by rw [h]; decide⟩

/-- C7 amended: the scenario's jump-target list is
`[(0,0,"A"), (2,2,"A::foo")]`; `next` from `(0,0)` still moves to `(2,2)`
announcing `A::foo` (the target at `(0,0)` is not strictly after the
cursor), and a second `next` from `(2,2)` reports no next symbol. -/
theorem demo_scenario_amended :
    getJumpTargets [demoClassA] [] = [⟨⟨0, 0⟩, "A"⟩, ⟨⟨2, 2⟩, "A::foo"⟩] ∧
    moveCursorToSymbol [demoClassA] [] ⟨0, 0⟩ Direction.next =
      MoveOutcome.moved ⟨⟨2, 2⟩, "A::foo"⟩ Direction.next ∧
    announceText Direction.next ⟨⟨2, 2⟩, "A::foo"⟩ = "Moved next to A::foo." ∧
    moveCursorToSymbol [demoClassA] [] ⟨2, 2⟩ Direction.next =
      MoveOutcome.noTargetInDirection Direction.next := by
  have hflat : flattenSymbols [demoClassA] [] = [⟨demoClassA, []⟩, ⟨demoFoo, [demoClassA]⟩] := by
    simp [flattenSymbols, demoClassA, demoFoo, Symbol.children]
  have h : getJumpTargets [demoClassA] [] = [⟨⟨0, 0⟩, "A"⟩, ⟨⟨2, 2⟩, "A::foo"⟩] := by
    unfold getJumpTargets providerTargets
    rw [hflat]
    rfl
  refine ⟨h, ?_, by decide, ?_⟩
  · unfold moveCursorToSymbol
    rw [h]
    rfl
  · unfold moveCursorToSymbol
    rw [h]
    rfl

/-- C8: when the cursor is inside no entry of the desired kind,
`detectCurrentBlock` only clears `cursorInSelection` and leaves every
other selection field unchanged. -/
theorem detectCurrentBlock_no_match_only_flag (sel : Selection)
    (docLines : List (List Char)) (symbols : List Symbol) (cursor : Pos)
    (h : ∀ e ∈ walkFlat symbols [], inRange cursor e.sym.range = true →
      kindMatch (wantKindOf sel.blockType) e.sym.kind = false) :
    detectCurrentBlock sel docLines symbols cursor =
      { sel with cursorInSelection := false } ∧
    (detectCurrentBlock sel docLines symbols cursor).cursorInSelection = false ∧
    (detectCurrentBlock sel docLines symbols cursor).name = sel.name ∧
    (detectCurrentBlock sel docLines symbols cursor).text = sel.text ∧
    (detectCurrentBlock sel docLines symbols cursor).firstLine = sel.firstLine ∧
    (detectCurrentBlock sel docLines symbols cursor).lastLine = sel.lastLine ∧
    (detectCurrentBlock sel docLines symbols cursor).selectionInClass = sel.selectionInClass := by
  have hempty : matchingEntries sel.blockType symbols cursor = [] := by
    unfold matchingEntries
    refine List.filter_eq_nil_iff.mpr ?_
    intro e he
    have he' := List.mem_filter.mp he
    have hk := h e he'.1 he'.2
    simp [hk]
  have hd : detectCurrentBlock sel docLines symbols cursor =
      { sel with cursorInSelection := false } := by
    unfold detectCurrentBlock
    rw [hempty]
    rfl
  rw [hd]
  exact ⟨rfl, rfl, rfl, rfl, rfl, rfl, rfl⟩

/-- C8 witness: cursor `(20,0)` lies outside both scenario ranges. -/
theorem detectCurrentBlock_no_match_only_flag_witness :
    (∀ e ∈ walkFlat [demoClassA] [], inRange ⟨20, 0⟩ e.sym.range = true →
      kindMatch (wantKindOf (Selection.mk none none true "function" "" "" false).blockType)
        e.sym.kind = false) ∧
    detectCurrentBlock { blockType := "function" } [] [demoClassA] ⟨20, 0⟩ =
      { Selection.mk none none true "function" "" "" false with cursorInSelection := false } := by
  have hw : walkFlat [demoClassA] [] = [⟨demoClassA, []⟩, ⟨demoFoo, [demoClassA]⟩] := by
    simp [walkFlat, demoClassA, demoFoo, Symbol.children]
  have hh : ∀ e ∈ walkFlat [demoClassA] [], inRange ⟨20, 0⟩ e.sym.range = true →
      kindMatch (wantKindOf (Selection.mk none none true "function" "" "" false).blockType)
        e.sym.kind = false := by
    rw [hw]
    intro e he hin
    rcases List.mem_cons.mp he with rfl | he
    · exact absurd hin (by decide)
    · have he' : e = ⟨demoFoo, [demoClassA]⟩ := by simpa using he
      subst he'
      exact absurd hin (by decide)
  exact ⟨hh, (detectCurrentBlock_no_match_only_flag { blockType := "function" } []
    [demoClassA] ⟨20, 0⟩ hh).1⟩

end EchoCode
